import Mathlib

/-!
# Bcrypt wrapper for the ESP8266: embedding of `bcrypt.c`

The functions of `namespace Bcrypt` in `bcrypt.c` are embedded as Lean functions.

* A `char` is a byte, `Fin 256`. A `char *` argument is the list of the bytes
  stored from the pointed address to the end of the object it points into.
* Reading such a region past its end has no defined result: `strlen` of a
  region holding no NUL byte is `none`, and so is every result depending on it.
* `int` is 32 bits wide on the ESP8266, and so is `size_t`; the conversion
  `int len = strlen (s)` is the explicit wrap `int_of_size_t`.
* The two functions of the crypt_blowfish library that the wrapper calls,
  `crypt_gensalt_rn` and `crypt_rn`, and the hardware register `RANDOM_REG32`
  are parameters of the functions that use them.
-/

namespace Bcrypt

/-- One `char`, as the unsigned value of its eight bits. -/
abbrev Byte := Fin 256

/-- The constant `#define RANDBYTES (16)`. -/
def RANDBYTES : Nat := 16

/-- The constant `#define BCRYPT_HASHSIZE (64)`. -/
def BCRYPT_HASHSIZE : Nat := 64

/-- The value of `sizeof(char)`, which is 1 in C. -/
def sizeof_char : Nat := 1

/-- Conversion of a `size_t` to the 32-bit `int` (two's complement wrap). -/
def int_of_size_t (n : Nat) : Int := Int.bmod (n : Int) (2 ^ 32)

/-- The C function `strlen`: the number of bytes before the first NUL byte; `none`
when the region ends before a NUL byte is met. -/
def strlen : List Byte → Option Nat
  | [] => none
  | c :: cs => if c = 0 then some 0 else (strlen cs).map (· + 1)

/-- The `i`-th byte of a region read as `unsigned char` and promoted to `int`.
Every index read by `timing_safe_strcmp` is below the `strlen` of the region. -/
def uchar_at (u : List Byte) (i : Nat) : Nat := (u.getD i 0).val

/-- The loop `for (i = 0; i < len1; ++i) ret |= (u1[i] ^ u2[i]);` started with
`ret` and run for `i = 0 .. len1 - 1`; no iteration when `len1 <= 0`. The `int`
accumulator `ret` only ever holds an OR of values in 0..255, so its value is kept
as a natural number. -/
def xor_or_loop (u1 u2 : List Byte) (len1 : Int) (ret : Nat) : Nat :=
  (List.range len1.toNat).foldl (fun r i => r ||| (uchar_at u1 i ^^^ uchar_at u2 i)) ret

/-- The function `static int timing_safe_strcmp(const char *str1, const char *str2)`:
both lengths are taken, a difference of the lengths returns 1, and otherwise the
loop runs over `len1` positions and its accumulator is returned. -/
def timing_safe_strcmp (str1 str2 : List Byte) : Option Int :=
  match strlen str1, strlen str2 with
  | some n1, some n2 =>
    let len1 := int_of_size_t n1
    let len2 := int_of_size_t n2
    if len1 ≠ len2 then some 1
    else some (xor_or_loop str1 str2 len1 0 : Nat)
  | _, _ => none

/-- The function `void genRandomBytes(char *bytes, int size)`: for
`i = 0 .. size - 1` the byte `*(bytes + i)` is set to `RANDOM_REG32 % sizeof(char)`, converted to `char`.
`reg i` is the 32-bit value the register `RANDOM_REG32` gives at iteration `i`.
The result is the region after the loop; a position past the end of the list lies
outside the region and is not recorded. -/
def genRandomBytes (reg : Nat → Nat) (bytes : List Byte) (size : Int) : List Byte :=
  (List.range size.toNat).foldl
    (fun b i => b.set i (Fin.ofNat (reg i % sizeof_char))) bytes

/-- What a call of `crypt_gensalt_rn` or `crypt_rn` leaves: whether the returned
pointer is `NULL`, and the bytes of the output buffer after the call. -/
structure CryptResult where
  isNull : Bool
  output : List Byte
  deriving DecidableEq

/-- The type of `crypt_gensalt_rn (pfx, count, input, size, output, output_size)`. -/
abbrev GensaltRn := List Byte → Int → List Byte → Int → List Byte → Int → CryptResult

/-- The type of `crypt_rn (key, setting, data, size)`; `data` is the output buffer. -/
abbrev CryptRn := List Byte → List Byte → List Byte → Int → CryptResult

/-- The string literal `"$2a$"` with its terminating NUL. -/
def dollar2a : List Byte := [36, 50, 97, 36, 0]

/-- The statement `workf = (factor < 4 || factor > 31)?12:factor;` of `gensalt`. -/
def workf (factor : Int) : Int :=
  if factor < 4 ∨ factor > 31 then 12 else factor

/-- The function `int gensalt(int factor, char salt[BCRYPT_HASHSIZE])`. `input0`
is the indeterminate initial content of the local array `char input[RANDBYTES]`.
The result is the returned `int` and the bytes of `salt` after the call. -/
def gensalt (crypt_gensalt_rn : GensaltRn) (reg : Nat → Nat)
    (input0 : Fin RANDBYTES → Byte) (factor : Int) (salt : List Byte) : Int × List Byte :=
  let input := genRandomBytes reg (List.ofFn input0) RANDBYTES
  let aux := crypt_gensalt_rn dollar2a (workf factor) input RANDBYTES salt BCRYPT_HASHSIZE
  (if aux.isNull then 5 else 0, aux.output)

/-- The function `int hashpw(const char *passwd, const char salt[BCRYPT_HASHSIZE],
char hash[BCRYPT_HASHSIZE])`. The result is the returned `int` and the bytes of
`hash` after the call. -/
def hashpw (crypt_rn : CryptRn) (passwd salt hash : List Byte) : Int × List Byte :=
  let aux := crypt_rn passwd salt hash BCRYPT_HASHSIZE
  (if aux.isNull then 1 else 0, aux.output)

/-- The function `int checkpw(const char *passwd, const char hash[BCRYPT_HASHSIZE])`;
the call it makes at `ret = bcrypt_hashpw(passwd, hash, outhash)` is `hashpw`. `outhash0` is
the indeterminate initial content of the local array `char outhash[BCRYPT_HASHSIZE]`. -/
def checkpw (crypt_rn : CryptRn) (outhash0 : Fin BCRYPT_HASHSIZE → Byte)
    (passwd hash : List Byte) : Option Int :=
  let r := hashpw crypt_rn passwd hash (List.ofFn outhash0)
  if r.1 ≠ 0 then some (-1)
  else timing_safe_strcmp hash r.2

/-! ## The comparator in the words of the specification -/

/-- The specification's reading of the comparator on two byte sequences: the
bitwise OR, over the positions the two sequences share, of the XOR of the two
bytes at that position taken as unsigned values; 0 when there is no position. -/
def or_of_xor : List Byte → List Byte → Nat
  | x :: xs, y :: ys => (x.val ^^^ y.val) ||| or_of_xor xs ys
  | _, _ => 0

/-! ## Stand-ins for the two library functions

The theorems below hold for every `crypt_gensalt_rn` and every `crypt_rn`. To
evaluate the wrapper at concrete inputs, two small functions of the right types
are fixed here; they are not the Blowfish functions. -/

/-- A sequence of register readings to evaluate `gensalt` at. -/
def demo_reg : Nat → Nat := fun i => 77 * i + 5

/-- An initial content of the local array `input` to evaluate `gensalt` at. -/
def demo_input0 : Fin RANDBYTES → Byte := fun i => Fin.ofNat (i.val + 1)

/-- An initial content of the local array `outhash` to evaluate `checkpw` at. -/
def demo_outhash0 : Fin BCRYPT_HASHSIZE → Byte := fun i => Fin.ofNat (2 * i.val + 1)

/-- A stand-in of type `CryptRn`: it rejects a setting that does not begin with
`$`, and otherwise writes `$`, the bytes of the key and a NUL. -/
def demo_crypt_rn : CryptRn := fun key setting data _ =>
  match setting with
  | 36 :: _ => ⟨false, 36 :: key.takeWhile (· ≠ 0) ++ [0]⟩
  | _ => ⟨true, data⟩

/-- A second stand-in of type `CryptRn`, which writes in place: it rejects a setting
that does not begin with `$`, and otherwise writes `$`, the bytes of the key and a
NUL over the first bytes of the buffer and leaves the bytes after them as they were. -/
def demo_crypt_rn_inplace : CryptRn := fun key setting data _ =>
  match setting with
  | 36 :: _ =>
    ⟨false, (36 :: key.takeWhile (· ≠ 0) ++ [0]) ++
      data.drop ((key.takeWhile (· ≠ 0)).length + 2)⟩
  | _ => ⟨true, data⟩

/-- A second initial content of the local array `outhash`. -/
def demo_outhash1 : Fin BCRYPT_HASHSIZE → Byte := fun i => Fin.ofNat (3 * i.val + 7)

/-- A stand-in of type `GensaltRn`: it rejects a count outside 4..31, and otherwise
writes the setting text, the two decimal digits of the count, `$` and a NUL. -/
def demo_gensalt_rn : GensaltRn := fun pfx count _ _ output _ =>
  if count < 4 ∨ count > 31 then ⟨true, output⟩
  else ⟨false, pfx.takeWhile (· ≠ 0) ++
    [Fin.ofNat (48 + count.toNat / 10), Fin.ofNat (48 + count.toNat % 10), 36, 0]⟩

/-! ## Auxiliary facts -/

theorem nat_or_eq_zero (a b : Nat) : a ||| b = 0 ↔ a = 0 ∧ b = 0 := by
  constructor
  · intro h
    have hbit : ∀ i, a.testBit i = false ∧ b.testBit i = false := by
      intro i
      have hi : (a ||| b).testBit i = false := by rw [h]; exact Nat.zero_testBit i
      rw [Nat.testBit_or] at hi
      simpa using hi
    constructor
    · apply Nat.eq_of_testBit_eq
      intro i
      rw [(hbit i).1, Nat.zero_testBit]
    · apply Nat.eq_of_testBit_eq
      intro i
      rw [(hbit i).2, Nat.zero_testBit]
  · rintro ⟨rfl, rfl⟩
    rfl

theorem int_of_size_t_small (n : Nat) (h : n < 2 ^ 31) : int_of_size_t n = (n : Int) := by
  unfold int_of_size_t
  rw [Int.bmod_def]
  have h1 : (n : Int) % ((2 ^ 32 : Nat) : Int) = n := by
    apply Int.emod_eq_of_lt <;> omega
  rw [h1]
  split <;> omega

theorem int_of_size_t_toNat_le (n : Nat) : (int_of_size_t n).toNat ≤ n := by
  unfold int_of_size_t
  rw [Int.bmod_def]
  have h1 : (n : Int) % ((2 ^ 32 : Nat) : Int) = ((n % 2 ^ 32 : Nat) : Int) := by
    norm_cast
  have h2 : n % 2 ^ 32 ≤ n := Nat.mod_le n _
  rw [h1]
  split <;> omega

theorem strlen_lt_length : ∀ (s : List Byte) (n : Nat), strlen s = some n → n < s.length
  | [], n, h => by simp [strlen] at h
  | c :: cs, n, h => by
    unfold strlen at h
    split at h
    · simp at h
      subst h
      simp
    · cases hcs : strlen cs with
      | none => simp [hcs] at h
      | some k =>
        simp [hcs] at h
        subst h
        have := strlen_lt_length cs k hcs
        simp
        omega

theorem fold_or_eq_zero (f : Nat → Nat) (k r : Nat) :
    (List.range k).foldl (fun r i => r ||| f i) r = 0 ↔ r = 0 ∧ ∀ i, i < k → f i = 0 := by
  induction k with
  | zero => simp
  | succ k ih =>
    rw [List.range_succ, List.foldl_append]
    simp only [List.foldl_cons, List.foldl_nil]
    rw [nat_or_eq_zero, ih]
    constructor
    · rintro ⟨⟨hr, hall⟩, hk⟩
      refine ⟨hr, ?_⟩
      intro i hi
      rcases Nat.lt_succ_iff_lt_or_eq.mp hi with hlt | heq
      · exact hall i hlt
      · rw [heq]; exact hk
    · rintro ⟨hr, hall⟩
      exact ⟨⟨hr, fun i hi => hall i (Nat.lt_succ_of_lt hi)⟩, hall k (Nat.lt_succ_self k)⟩

theorem xor_or_loop_eq_zero (u1 u2 : List Byte) (len1 : Int) :
    xor_or_loop u1 u2 len1 0 = 0 ↔ ∀ i, i < len1.toNat → u1.getD i 0 = u2.getD i 0 := by
  unfold xor_or_loop
  rw [fold_or_eq_zero]
  simp only [true_and, uchar_at, Nat.xor_eq_zero]
  constructor
  · intro h i hi
    exact Fin.ext (h i hi)
  · intro h i hi
    rw [h i hi]

theorem timing_safe_strcmp_of_strlen (a b : List Byte) (n m : Nat)
    (ha : strlen a = some n) (hb : strlen b = some m) :
    timing_safe_strcmp a b =
      if int_of_size_t n ≠ int_of_size_t m then some 1
      else some ((xor_or_loop a b (int_of_size_t n) 0 : Nat) : Int) := by
  unfold timing_safe_strcmp
  rw [ha, hb]

theorem take_eq_take_iff (a b : List Byte) (n m : Nat)
    (hn : n < a.length) (hm : m < b.length) :
    a.take n = b.take m ↔ (n = m ∧ ∀ i, i < n → a.getD i 0 = b.getD i 0) := by
  constructor
  · intro h
    have hl := congrArg List.length h
    rw [List.length_take, List.length_take, min_eq_left (le_of_lt hn),
      min_eq_left (le_of_lt hm)] at hl
    subst hl
    refine ⟨rfl, ?_⟩
    intro i hi
    have h1 : (a.take n)[i]? = (b.take n)[i]? := by rw [h]
    rw [List.getElem?_take_of_lt hi, List.getElem?_take_of_lt hi] at h1
    simp [h1]
  · rintro ⟨rfl, hall⟩
    apply List.ext_getElem?
    intro i
    by_cases hi : i < n
    · rw [List.getElem?_take_of_lt hi, List.getElem?_take_of_lt hi]
      have hia : i < a.length := lt_trans hi hn
      have hib : i < b.length := lt_trans hi hm
      have := hall i hi
      rw [List.getD_eq_getElem a 0 hia, List.getD_eq_getElem b 0 hib] at this
      rw [List.getElem?_eq_getElem hia, List.getElem?_eq_getElem hib, this]
    · rw [List.getElem?_take_eq_none (le_of_not_lt hi),
        List.getElem?_take_eq_none (le_of_not_lt hi)]

theorem timing_safe_strcmp_nonneg (a b : List Byte) (r : Int)
    (h : timing_safe_strcmp a b = some r) : 0 ≤ r := by
  cases ha : strlen a with
  | none => simp [timing_safe_strcmp, ha] at h
  | some n =>
    cases hb : strlen b with
    | none => simp [timing_safe_strcmp, ha, hb] at h
    | some m =>
      rw [timing_safe_strcmp_of_strlen a b n m ha hb] at h
      split at h
      · simp at h; omega
      · simp at h; omega

theorem timing_safe_strcmp_key (a b : List Byte) (n m : Nat)
    (ha : strlen a = some n) (hb : strlen b = some m)
    (hn : n < 2 ^ 31) (hm : m < 2 ^ 31) :
    ∃ r : Int, timing_safe_strcmp a b = some r ∧
      (r = 0 ↔ (n = m ∧ ∀ i, i < n → a.getD i 0 = b.getD i 0)) := by
  rw [timing_safe_strcmp_of_strlen a b n m ha hb,
    int_of_size_t_small n hn, int_of_size_t_small m hm]
  by_cases hnm : n = m
  · subst hnm
    refine ⟨((xor_or_loop a b (n : Int) 0 : Nat) : Int), by simp, ?_⟩
    rw [Int.natCast_eq_zero, xor_or_loop_eq_zero]
    simp
  · have hne : (n : Int) ≠ (m : Int) := by exact_mod_cast hnm
    refine ⟨1, by simp [hne], ?_⟩
    simp [hnm]

theorem timing_safe_strcmp_self (a : List Byte) (n : Nat) (ha : strlen a = some n) :
    timing_safe_strcmp a a = some 0 := by
  rw [timing_safe_strcmp_of_strlen a a n n ha ha]
  have h0 : xor_or_loop a a (int_of_size_t n) 0 = 0 :=
    (xor_or_loop_eq_zero a a _).mpr (fun _ _ => rfl)
  simp [h0]

theorem timing_safe_strcmp_length_ne (a b : List Byte) (n m : Nat)
    (ha : strlen a = some n) (hb : strlen b = some m)
    (hn : n < 2 ^ 31) (hm : m < 2 ^ 31) (hnm : n ≠ m) :
    timing_safe_strcmp a b = some 1 := by
  rw [timing_safe_strcmp_of_strlen a b n m ha hb,
    int_of_size_t_small n hn, int_of_size_t_small m hm]
  have hne : (n : Int) ≠ (m : Int) := by exact_mod_cast hnm
  simp [hne]

theorem timing_safe_strcmp_same_string (a b : List Byte) (n : Nat)
    (ha : strlen a = some n) (hb : strlen b = some n)
    (hall : ∀ i, i < n → a.getD i 0 = b.getD i 0) :
    timing_safe_strcmp a b = some 0 := by
  rw [timing_safe_strcmp_of_strlen a b n n ha hb]
  have h0 : xor_or_loop a b (int_of_size_t n) 0 = 0 :=
    (xor_or_loop_eq_zero a b _).mpr
      (fun i hi => hall i (lt_of_lt_of_le hi (int_of_size_t_toNat_le n)))
  simp [h0]

/-! ## The comparator -/

/-- C4. For NUL-terminated `a` and `b` whose lengths `n` and `m` fit the `int` the
code stores them in, `timing_safe_strcmp a b` returns a value that is 0 exactly
when the lengths are equal and the bytes agree at every position below the
length; a string compared with itself gives 0, and a difference in the length or
in a byte gives a nonzero value. -/
theorem timing_safe_strcmp_eq_zero_iff (a b : List Byte) (n m : Nat)
    (ha : strlen a = some n) (hb : strlen b = some m)
    (hn : n < 2 ^ 31) (hm : m < 2 ^ 31) :
    (∃ r : Int, timing_safe_strcmp a b = some r ∧
      (r = 0 ↔ (n = m ∧ ∀ i, i < n → a.getD i 0 = b.getD i 0))) ∧
    timing_safe_strcmp a a = some 0 ∧
    ((n ≠ m ∨ ∃ i, i < n ∧ a.getD i 0 ≠ b.getD i 0) →
      ∃ r : Int, timing_safe_strcmp a b = some r ∧ r ≠ 0) := by
  have key := timing_safe_strcmp_key a b n m ha hb hn hm
  refine ⟨key, timing_safe_strcmp_self a n ha, ?_⟩
  · intro hdiff
    obtain ⟨r, hr, hiff⟩ := key
    refine ⟨r, hr, ?_⟩
    intro hr0
    obtain ⟨hnm, hall⟩ := hiff.mp hr0
    rcases hdiff with hne | ⟨i, hi, hbyte⟩
    · exact hne hnm
    · exact hbyte (hall i hi)

theorem timing_safe_strcmp_eq_zero_iff_witness :
    (∃ r : Int, timing_safe_strcmp [104, 105, 0, 7] [104, 106, 0] = some r ∧
      (r = 0 ↔ (2 = 2 ∧ ∀ i, i < 2 →
        ([104, 105, 0, 7] : List Byte).getD i 0 = ([104, 106, 0] : List Byte).getD i 0))) ∧
    timing_safe_strcmp [104, 105, 0, 7] [104, 105, 0, 7] = some 0 ∧
    ((2 ≠ 2 ∨ ∃ i, i < 2 ∧
        ([104, 105, 0, 7] : List Byte).getD i 0 ≠ ([104, 106, 0] : List Byte).getD i 0) →
      ∃ r : Int, timing_safe_strcmp [104, 105, 0, 7] [104, 106, 0] = some r ∧ r ≠ 0) :=
  timing_safe_strcmp_eq_zero_iff [104, 105, 0, 7] [104, 106, 0] 2 2
    (by decide) (by decide) (by decide) (by decide)

/-! ## Verification: `checkpw` -/

theorem checkpw_of_hashpw_ok (crypt_rn : CryptRn) (outhash0 : Fin BCRYPT_HASHSIZE → Byte)
    (passwd hash out : List Byte)
    (h : hashpw crypt_rn passwd hash (List.ofFn outhash0) = (0, out)) :
    checkpw crypt_rn outhash0 passwd hash = timing_safe_strcmp hash out := by
  unfold checkpw
  rw [h]
  rfl

theorem hashpw_fst_eq_zero_iff (crypt_rn : CryptRn) (passwd salt hash : List Byte) :
    (hashpw crypt_rn passwd salt hash).1 = 0 ↔
      (crypt_rn passwd salt hash BCRYPT_HASHSIZE).isNull = false := by
  cases h : (crypt_rn passwd salt hash BCRYPT_HASHSIZE).isNull <;> simp [hashpw, h]

/-- C1. Round trip: when `hashpw` on password `p` and salt `s` returns 0 and leaves
the NUL-terminated string `H`, and `crypt_rn` called on `p` with `H` as setting
returns a non-NULL pointer and leaves the same string, then `checkpw p H` returns
0. The salt `s` is arbitrary, so this covers every salt left by `gensalt`. -/
theorem checkpw_hashpw_round_trip (crypt_rn : CryptRn)
    (outhash0 : Fin BCRYPT_HASHSIZE → Byte) (p s H0 H out : List Byte) (n : Nat)
    (_hhash : hashpw crypt_rn p s H0 = (0, H))
    (hH : strlen H = some n)
    (hself : crypt_rn p H (List.ofFn outhash0) BCRYPT_HASHSIZE = ⟨false, out⟩)
    (hout : strlen out = some n)
    (hsame : ∀ i, i < n → out.getD i 0 = H.getD i 0) :
    checkpw crypt_rn outhash0 p H = some 0 := by
  have hre : hashpw crypt_rn p H (List.ofFn outhash0) = (0, out) := by
    unfold hashpw
    rw [hself]
    rfl
  rw [checkpw_of_hashpw_ok crypt_rn outhash0 p H out hre]
  exact timing_safe_strcmp_same_string H out n hH hout (fun i hi => (hsame i hi).symm)

theorem checkpw_hashpw_round_trip_witness :
    hashpw demo_crypt_rn [112, 119, 0]
        (gensalt demo_gensalt_rn demo_reg demo_input0 12
          (List.replicate 64 0)).2 (List.replicate 64 0)
      = (0, [36, 112, 119, 0]) ∧
    checkpw demo_crypt_rn demo_outhash0 [112, 119, 0] [36, 112, 119, 0] = some 0 :=
  ⟨by decide,
   checkpw_hashpw_round_trip demo_crypt_rn demo_outhash0 [112, 119, 0]
    (gensalt demo_gensalt_rn demo_reg demo_input0 12 (List.replicate 64 0)).2
    (List.replicate 64 0) [36, 112, 119, 0] [36, 112, 119, 0] 3
    (by decide) (by decide) (by decide) (by decide) (by decide)⟩

/-- C2. When the re-hash made by `checkpw` succeeds and both the stored hash and
the re-derived hash are NUL-terminated strings (of lengths `n` and `m` that fit
an `int`), `checkpw` returns a value that is 0 exactly when the two strings are
equal, is strictly positive otherwise, and is never negative, so never -1. -/
theorem checkpw_three_valued (crypt_rn : CryptRn)
    (outhash0 : Fin BCRYPT_HASHSIZE → Byte) (passwd hash out : List Byte) (n m : Nat)
    (hre : hashpw crypt_rn passwd hash (List.ofFn outhash0) = (0, out))
    (hn : strlen hash = some n) (hm : strlen out = some m)
    (hnb : n < 2 ^ 31) (hmb : m < 2 ^ 31) :
    ∃ r : Int, checkpw crypt_rn outhash0 passwd hash = some r ∧
      (r = 0 ↔ hash.take n = out.take m) ∧
      (r ≠ 0 → 0 < r) ∧ 0 ≤ r ∧ r ≠ -1 := by
  rw [checkpw_of_hashpw_ok crypt_rn outhash0 passwd hash out hre]
  obtain ⟨r, hr, hiff⟩ := timing_safe_strcmp_key hash out n m hn hm hnb hmb
  have hnn : 0 ≤ r := timing_safe_strcmp_nonneg hash out r hr
  refine ⟨r, hr, ?_, ?_, hnn, ?_⟩
  · rw [hiff, take_eq_take_iff hash out n m (strlen_lt_length hash n hn)
      (strlen_lt_length out m hm)]
  · intro hne
    omega
  · omega

theorem checkpw_three_valued_witness :
    ∃ r : Int, checkpw demo_crypt_rn demo_outhash0 [112, 119, 0] [36, 112, 120, 0] = some r ∧
      (r = 0 ↔ ([36, 112, 120, 0] : List Byte).take 3 = ([36, 112, 119, 0] : List Byte).take 3) ∧
      (r ≠ 0 → 0 < r) ∧ 0 ≤ r ∧ r ≠ -1 :=
  checkpw_three_valued demo_crypt_rn demo_outhash0 [112, 119, 0] [36, 112, 120, 0]
    [36, 112, 119, 0] 3 3 (by decide) (by decide) (by decide) (by decide) (by decide)

/-- C3. For every password and stored hash, `checkpw` returns -1 exactly when the
hashing call fails, that is when `hashpw` returns nonzero, that is when `crypt_rn`
returns `NULL`. So a stored hash that the primitive rejects gives -1, and a call
whose hashing succeeded never gives -1. -/
theorem checkpw_error_iff (crypt_rn : CryptRn)
    (outhash0 : Fin BCRYPT_HASHSIZE → Byte) (passwd hash : List Byte) :
    (checkpw crypt_rn outhash0 passwd hash = some (-1) ↔
      (hashpw crypt_rn passwd hash (List.ofFn outhash0)).1 ≠ 0) ∧
    (checkpw crypt_rn outhash0 passwd hash = some (-1) ↔
      (crypt_rn passwd hash (List.ofFn outhash0) BCRYPT_HASHSIZE).isNull = true) := by
  have h1 : checkpw crypt_rn outhash0 passwd hash = some (-1) ↔
      (hashpw crypt_rn passwd hash (List.ofFn outhash0)).1 ≠ 0 := by
    constructor
    · intro h hz
      have hre : hashpw crypt_rn passwd hash (List.ofFn outhash0) =
          (0, (hashpw crypt_rn passwd hash (List.ofFn outhash0)).2) := by
        rw [← hz]
      rw [checkpw_of_hashpw_ok crypt_rn outhash0 passwd hash _ hre] at h
      have := timing_safe_strcmp_nonneg _ _ _ h
      omega
    · intro h
      unfold checkpw
      exact if_pos h
  refine ⟨h1, ?_⟩
  rw [h1, Ne, hashpw_fst_eq_zero_iff]
  simp

/-- C7, as the code has it. When the re-hash succeeds and the re-derived string has
a length different from the stored string (both lengths fitting an `int`),
`checkpw` returns 1, a mismatch value, and not the error value -1. -/
theorem checkpw_length_mismatch (crypt_rn : CryptRn)
    (outhash0 : Fin BCRYPT_HASHSIZE → Byte) (passwd hash out : List Byte) (n m : Nat)
    (hre : hashpw crypt_rn passwd hash (List.ofFn outhash0) = (0, out))
    (hn : strlen hash = some n) (hm : strlen out = some m)
    (hnb : n < 2 ^ 31) (hmb : m < 2 ^ 31) (hnm : n ≠ m) :
    checkpw crypt_rn outhash0 passwd hash = some 1 ∧
    checkpw crypt_rn outhash0 passwd hash ≠ some (-1) := by
  rw [checkpw_of_hashpw_ok crypt_rn outhash0 passwd hash out hre,
    timing_safe_strcmp_length_ne hash out n m hn hm hnb hmb hnm]
  exact ⟨rfl, by decide⟩

theorem checkpw_length_mismatch_witness :
    checkpw demo_crypt_rn demo_outhash0 [112, 119, 0] [36, 112, 119, 120, 0] = some 1 ∧
    checkpw demo_crypt_rn demo_outhash0 [112, 119, 0] [36, 112, 119, 120, 0] ≠ some (-1) :=
  checkpw_length_mismatch demo_crypt_rn demo_outhash0 [112, 119, 0] [36, 112, 119, 120, 0]
    [36, 112, 119, 0] 4 3 (by decide) (by decide) (by decide) (by decide) (by decide)
    (by decide)

/-- C7, as stated, fails: with the stored string `$p` (length 2) and the password
`pw`, the re-hash succeeds and leaves `$pw` (length 3), and `checkpw` returns 1,
not -1. -/
theorem checkpw_shorter_stored_hash_returns_one :
    hashpw demo_crypt_rn [112, 119, 0] [36, 112, 0]
        (List.ofFn demo_outhash0) = (0, [36, 112, 119, 0]) ∧
    strlen [36, 112, 0] = some 2 ∧
    strlen [36, 112, 119, 0] = some 3 ∧
    checkpw demo_crypt_rn demo_outhash0 [112, 119, 0] [36, 112, 0] = some 1 ∧
    checkpw demo_crypt_rn demo_outhash0 [112, 119, 0] [36, 112, 0] ≠ some (-1) := by
  decide

/-! ## Salt generation: `genRandomBytes` and `gensalt` -/

theorem gensalt_eq (enc : GensaltRn) (reg : Nat → Nat) (input0 : Fin RANDBYTES → Byte)
    (factor : Int) (salt : List Byte) :
    gensalt enc reg input0 factor salt =
      (if (enc dollar2a (workf factor) (genRandomBytes reg (List.ofFn input0) RANDBYTES)
            RANDBYTES salt BCRYPT_HASHSIZE).isNull then 5 else 0,
       (enc dollar2a (workf factor) (genRandomBytes reg (List.ofFn input0) RANDBYTES)
            RANDBYTES salt BCRYPT_HASHSIZE).output) :=
  rfl

theorem workf_of_out_of_range (c : Int) (hc : c < 4 ∨ c > 31) : workf c = 12 := by
  unfold workf
  rw [if_pos hc]

theorem workf_of_in_range (c : Int) (h4 : 4 ≤ c) (h31 : c ≤ 31) : workf c = c := by
  unfold workf
  rw [if_neg]
  omega

theorem set_zero_fold (k : Nat) (bytes : List Byte) (hk : k ≤ bytes.length) :
    (List.range k).foldl (fun b i => b.set i (0 : Byte)) bytes =
      List.replicate k 0 ++ bytes.drop k := by
  induction k with
  | zero => simp
  | succ k ih =>
    have hlt : k < bytes.length := hk
    rw [List.range_succ, List.foldl_append, ih (le_of_lt hlt)]
    simp only [List.foldl_cons, List.foldl_nil]
    rw [List.set_append_right _ _ (by simp), List.length_replicate, Nat.sub_self,
      List.drop_eq_getElem_cons hlt, List.set_cons_zero, List.replicate_succ',
      List.append_assoc]
    rfl

theorem genRandomBytes_eq_set_zero (reg : Nat → Nat) (bytes : List Byte) (size : Int) :
    genRandomBytes reg bytes size =
      (List.range size.toNat).foldl (fun b i => b.set i (0 : Byte)) bytes := by
  unfold genRandomBytes
  congr 1
  funext b i
  rw [sizeof_char, Nat.mod_one]
  rfl

/-- C5. For a work factor `c` below 4 or above 31, `gensalt` calls the encoder with
work factor 12: its result is the result code and the salt of the call
`crypt_gensalt_rn ("$2a$", 12, input, 16, salt, 64)`, whatever the encoder is, and
it returns 0 when that call returns a non-NULL pointer. -/
theorem gensalt_out_of_range_uses_12 (enc : GensaltRn) (reg : Nat → Nat)
    (input0 : Fin RANDBYTES → Byte) (c : Int) (salt : List Byte)
    (hc : c < 4 ∨ c > 31) :
    workf c = 12 ∧
    gensalt enc reg input0 c salt =
      (if (enc dollar2a 12 (genRandomBytes reg (List.ofFn input0) RANDBYTES)
            RANDBYTES salt BCRYPT_HASHSIZE).isNull then 5 else 0,
       (enc dollar2a 12 (genRandomBytes reg (List.ofFn input0) RANDBYTES)
            RANDBYTES salt BCRYPT_HASHSIZE).output) ∧
    ((enc dollar2a 12 (genRandomBytes reg (List.ofFn input0) RANDBYTES)
        RANDBYTES salt BCRYPT_HASHSIZE).isNull = false →
      (gensalt enc reg input0 c salt).1 = 0) := by
  have hw := workf_of_out_of_range c hc
  have hg := gensalt_eq enc reg input0 c salt
  rw [hw] at hg
  refine ⟨hw, hg, ?_⟩
  intro hnn
  rw [hg, hnn]
  rfl

theorem gensalt_out_of_range_uses_12_witness :
    ((100 : Int) < 4 ∨ (100 : Int) > 31) ∧ workf 100 = 12 ∧
    gensalt demo_gensalt_rn demo_reg demo_input0 100 (List.replicate 64 0) =
      (0, [36, 50, 97, 36, 49, 50, 36, 0]) ∧
    (gensalt demo_gensalt_rn demo_reg demo_input0 100 (List.replicate 64 0)).1 = 0 :=
  ⟨by decide,
   (gensalt_out_of_range_uses_12 demo_gensalt_rn demo_reg demo_input0 100
      (List.replicate 64 0) (by decide)).1,
   ((gensalt_out_of_range_uses_12 demo_gensalt_rn demo_reg demo_input0 100
      (List.replicate 64 0) (by decide)).2.1).trans (by decide),
   (gensalt_out_of_range_uses_12 demo_gensalt_rn demo_reg demo_input0 100
      (List.replicate 64 0) (by decide)).2.2 (by decide)⟩

/-- C6. For a work factor `c` with `4 <= c <= 31`, the two bounds included,
`gensalt` calls the encoder with `c` itself: its result is the result code and the
salt of the call `crypt_gensalt_rn ("$2a$", c, input, 16, salt, 64)`, whatever the
encoder is. -/
theorem gensalt_in_range_keeps_factor (enc : GensaltRn) (reg : Nat → Nat)
    (input0 : Fin RANDBYTES → Byte) (c : Int) (salt : List Byte)
    (h4 : 4 ≤ c) (h31 : c ≤ 31) :
    workf c = c ∧
    gensalt enc reg input0 c salt =
      (if (enc dollar2a c (genRandomBytes reg (List.ofFn input0) RANDBYTES)
            RANDBYTES salt BCRYPT_HASHSIZE).isNull then 5 else 0,
       (enc dollar2a c (genRandomBytes reg (List.ofFn input0) RANDBYTES)
            RANDBYTES salt BCRYPT_HASHSIZE).output) := by
  have hw := workf_of_in_range c h4 h31
  have hg := gensalt_eq enc reg input0 c salt
  rw [hw] at hg
  exact ⟨hw, hg⟩

theorem gensalt_in_range_keeps_factor_witness :
    (workf 4 = 4 ∧
      gensalt demo_gensalt_rn demo_reg demo_input0 4 (List.replicate 64 0) =
        (0, [36, 50, 97, 36, 48, 52, 36, 0])) ∧
    (workf 31 = 31 ∧
      gensalt demo_gensalt_rn demo_reg demo_input0 31 (List.replicate 64 0) =
        (0, [36, 50, 97, 36, 51, 49, 36, 0])) :=
  ⟨⟨(gensalt_in_range_keeps_factor demo_gensalt_rn demo_reg demo_input0 4
        (List.replicate 64 0) (by decide) (by decide)).1,
    ((gensalt_in_range_keeps_factor demo_gensalt_rn demo_reg demo_input0 4
        (List.replicate 64 0) (by decide) (by decide)).2).trans (by decide)⟩,
   ⟨(gensalt_in_range_keeps_factor demo_gensalt_rn demo_reg demo_input0 31
        (List.replicate 64 0) (by decide) (by decide)).1,
    ((gensalt_in_range_keeps_factor demo_gensalt_rn demo_reg demo_input0 31
        (List.replicate 64 0) (by decide) (by decide)).2).trans (by decide)⟩⟩

/-- C8, on the code. `genRandomBytes` stores `RANDOM_REG32 % sizeof(char)`, and
`sizeof(char)` is 1, so the stored byte is 0 whatever the register gives: two
sequences of readings always leave the same bytes, and the 16-byte buffer that
`gensalt` hands to the encoder is sixteen zero bytes at every call. -/
theorem genRandomBytes_ignores_register (reg1 reg2 : Nat → Nat) :
    (∀ (bytes : List Byte) (size : Int),
      genRandomBytes reg1 bytes size = genRandomBytes reg2 bytes size) ∧
    (∀ input0 : Fin RANDBYTES → Byte,
      genRandomBytes reg1 (List.ofFn input0) RANDBYTES = List.replicate 16 0) := by
  constructor
  · intro bytes size
    rw [genRandomBytes_eq_set_zero, genRandomBytes_eq_set_zero]
  · intro input0
    rw [genRandomBytes_eq_set_zero]
    have hlen : (List.ofFn input0).length = 16 := List.length_ofFn input0
    have h16 : ((RANDBYTES : Nat) : Int).toNat = 16 := rfl
    rw [h16, set_zero_fold 16 _ (le_of_eq hlen.symm), List.drop_of_length_le (le_of_eq hlen)]
    simp

/-- C9. The result codes of the two wrappers: `gensalt` returns 0 exactly when its
call of `crypt_gensalt_rn` returns a non-NULL pointer and returns 5 otherwise, and
`hashpw` returns 0 exactly when its call of `crypt_rn` returns a non-NULL pointer
and returns 1 otherwise. -/
theorem wrappers_result_codes (enc : GensaltRn) (crypt_rn : CryptRn) (reg : Nat → Nat)
    (input0 : Fin RANDBYTES → Byte) (factor : Int) (salt passwd s hash : List Byte) :
    ((gensalt enc reg input0 factor salt).1 = 0 ↔
      (enc dollar2a (workf factor) (genRandomBytes reg (List.ofFn input0) RANDBYTES)
        RANDBYTES salt BCRYPT_HASHSIZE).isNull = false) ∧
    ((enc dollar2a (workf factor) (genRandomBytes reg (List.ofFn input0) RANDBYTES)
        RANDBYTES salt BCRYPT_HASHSIZE).isNull = true →
      (gensalt enc reg input0 factor salt).1 = 5) ∧
    ((hashpw crypt_rn passwd s hash).1 = 0 ↔
      (crypt_rn passwd s hash BCRYPT_HASHSIZE).isNull = false) ∧
    ((crypt_rn passwd s hash BCRYPT_HASHSIZE).isNull = true →
      (hashpw crypt_rn passwd s hash).1 = 1) := by
  have hg : (gensalt enc reg input0 factor salt).1 =
      if (enc dollar2a (workf factor) (genRandomBytes reg (List.ofFn input0) RANDBYTES)
        RANDBYTES salt BCRYPT_HASHSIZE).isNull then 5 else 0 := rfl
  have hh : (hashpw crypt_rn passwd s hash).1 =
      if (crypt_rn passwd s hash BCRYPT_HASHSIZE).isNull then 1 else 0 := rfl
  refine ⟨?_, ?_, hashpw_fst_eq_zero_iff crypt_rn passwd s hash, ?_⟩
  · rw [hg]
    cases h : (enc dollar2a (workf factor) (genRandomBytes reg (List.ofFn input0) RANDBYTES)
        RANDBYTES salt BCRYPT_HASHSIZE).isNull <;> simp
  · intro h
    rw [hg, h]
    rfl
  · intro h
    rw [hh, h]
    rfl

/-- C10. For every integer work factor, the work factor that `gensalt` hands to the
encoder lies between 4 and 31, bounds included: there is a `w` in that range such
that, whatever the encoder is, the result of `gensalt` is the result code and the
salt of the call `crypt_gensalt_rn ("$2a$", w, input, 16, salt, 64)`. -/
theorem gensalt_work_factor_in_range (factor : Int) :
    4 ≤ workf factor ∧ workf factor ≤ 31 ∧
    ∃ w : Int, 4 ≤ w ∧ w ≤ 31 ∧
      ∀ (enc : GensaltRn) (reg : Nat → Nat) (input0 : Fin RANDBYTES → Byte)
        (salt : List Byte),
        gensalt enc reg input0 factor salt =
          (if (enc dollar2a w (genRandomBytes reg (List.ofFn input0) RANDBYTES)
                RANDBYTES salt BCRYPT_HASHSIZE).isNull then 5 else 0,
           (enc dollar2a w (genRandomBytes reg (List.ofFn input0) RANDBYTES)
                RANDBYTES salt BCRYPT_HASHSIZE).output) := by
  have hr : 4 ≤ workf factor ∧ workf factor ≤ 31 := by
    unfold workf
    split <;> omega
  exact ⟨hr.1, hr.2, workf factor, hr.1, hr.2,
    fun enc reg input0 salt => gensalt_eq enc reg input0 factor salt⟩

/-! ## The frame of `genRandomBytes` -/

theorem fold_set_length (f : Nat → Byte) (k : Nat) (bytes : List Byte) :
    ((List.range k).foldl (fun b i => b.set i (f i)) bytes).length = bytes.length := by
  induction k with
  | zero => rfl
  | succ k ih =>
    rw [List.range_succ, List.foldl_append]
    simp only [List.foldl_cons, List.foldl_nil]
    rw [List.length_set, ih]

theorem fold_set_getElem?_of_le (f : Nat → Byte) (k : Nat) (bytes : List Byte) (j : Nat)
    (hkj : k ≤ j) :
    ((List.range k).foldl (fun b i => b.set i (f i)) bytes)[j]? = bytes[j]? := by
  induction k with
  | zero => rfl
  | succ k ih =>
    rw [List.range_succ, List.foldl_append]
    simp only [List.foldl_cons, List.foldl_nil]
    have hne : k ≠ j := by omega
    rw [List.getElem?_set_ne hne, ih (by omega)]

theorem fold_set_getElem?_of_lt (f : Nat → Byte) (k : Nat) (bytes : List Byte) (j : Nat)
    (hjk : j < k) (hj : j < bytes.length) :
    ((List.range k).foldl (fun b i => b.set i (f i)) bytes)[j]? = some (f j) := by
  induction k with
  | zero => omega
  | succ k ih =>
    rw [List.range_succ, List.foldl_append]
    simp only [List.foldl_cons, List.foldl_nil]
    by_cases hjeq : k = j
    · subst hjeq
      rw [List.getElem?_set_self (by rw [fold_set_length]; exact hj)]
    · rw [List.getElem?_set_ne hjeq, ih (by omega)]

/-- C11. The frame of `genRandomBytes`: with size 0 the buffer is returned as it
was, and so it is with a negative size; for every size the buffer keeps its
length, every position at or after the size keeps its byte, and every position
of the buffer before the size holds the byte the loop stored there. The function
has no failing path: it gives a buffer for every input. -/
theorem genRandomBytes_frame (reg : Nat → Nat) (bytes : List Byte) :
    genRandomBytes reg bytes 0 = bytes ∧
    (∀ size : Int, size ≤ 0 → genRandomBytes reg bytes size = bytes) ∧
    (∀ size : Int, (genRandomBytes reg bytes size).length = bytes.length) ∧
    (∀ (size : Int) (j : Nat), size ≤ (j : Int) →
      (genRandomBytes reg bytes size)[j]? = bytes[j]?) ∧
    (∀ (size : Int) (j : Nat), (j : Int) < size → j < bytes.length →
      (genRandomBytes reg bytes size)[j]? = some (Fin.ofNat (reg j % sizeof_char))) := by
  refine ⟨rfl, ?_, ?_, ?_, ?_⟩
  · intro size hsize
    have h0 : size.toNat = 0 := by omega
    unfold genRandomBytes
    rw [h0]
    rfl
  · intro size
    exact fold_set_length _ _ _
  · intro size j hj
    exact fold_set_getElem?_of_le _ _ _ _ (by omega)
  · intro size j hj hlen
    exact fold_set_getElem?_of_lt (fun i => Fin.ofNat (reg i % sizeof_char)) _ _ _
      (by omega) hlen

theorem genRandomBytes_frame_witness :
    genRandomBytes demo_reg [1, 2, 3, 4, 5] 0 = [1, 2, 3, 4, 5] ∧
    genRandomBytes demo_reg [1, 2, 3, 4, 5] (-3) = [1, 2, 3, 4, 5] ∧
    (genRandomBytes demo_reg [1, 2, 3, 4, 5] 3).length = 5 ∧
    (genRandomBytes demo_reg [1, 2, 3, 4, 5] 3)[3]? = some 4 ∧
    (genRandomBytes demo_reg [1, 2, 3, 4, 5] 3)[2]? = some 0 :=
  ⟨(genRandomBytes_frame demo_reg [1, 2, 3, 4, 5]).1,
   (genRandomBytes_frame demo_reg [1, 2, 3, 4, 5]).2.1 (-3) (by decide),
   (genRandomBytes_frame demo_reg [1, 2, 3, 4, 5]).2.2.1 3,
   (genRandomBytes_frame demo_reg [1, 2, 3, 4, 5]).2.2.2.1 3 3 (by decide),
   ((genRandomBytes_frame demo_reg [1, 2, 3, 4, 5]).2.2.2.2 3 2 (by decide) (by decide)).trans
     (by decide)⟩

/-! ## Symmetry of the comparator -/

theorem xor_or_loop_comm (u1 u2 : List Byte) (len1 : Int) (ret : Nat) :
    xor_or_loop u1 u2 len1 ret = xor_or_loop u2 u1 len1 ret := by
  unfold xor_or_loop
  congr 1
  funext r i
  rw [Nat.xor_comm]

/-- C14. The comparator is symmetric: for all regions `a` and `b`,
`timing_safe_strcmp a b` and `timing_safe_strcmp b a` are the same, as integer
values and not only as verdicts (and both are undefined together when one of the
regions holds no NUL byte). -/
theorem timing_safe_strcmp_symm (a b : List Byte) :
    timing_safe_strcmp a b = timing_safe_strcmp b a := by
  cases ha : strlen a with
  | none =>
    cases hb : strlen b <;> simp [timing_safe_strcmp, ha, hb]
  | some n =>
    cases hb : strlen b with
    | none => simp [timing_safe_strcmp, ha, hb]
    | some m =>
      rw [timing_safe_strcmp_of_strlen a b n m ha hb,
        timing_safe_strcmp_of_strlen b a m n hb ha]
      by_cases h : int_of_size_t n = int_of_size_t m
      · rw [if_neg (not_not.mpr h), if_neg (not_not.mpr h.symm), ← h, xor_or_loop_comm]
      · rw [if_pos h, if_pos (fun h2 => h h2.symm)]

/-! ## The comparator is the OR of the XORs -/

theorem fold_or_eq_or_of_xor : ∀ (k : Nat) (a b : List Byte) (r : Nat),
    k ≤ a.length → k ≤ b.length →
    (List.range k).foldl (fun r i => r ||| (uchar_at a i ^^^ uchar_at b i)) r =
      r ||| or_of_xor (a.take k) (b.take k)
  | 0, a, b, r, _, _ => by simp [or_of_xor]
  | k + 1, [], _, _, ha, _ => by simp at ha
  | k + 1, _ :: _, [], _, _, hb => by simp at hb
  | k + 1, x :: xs, y :: ys, r, ha, hb => by
    have hxs : k ≤ xs.length := by simpa using ha
    have hys : k ≤ ys.length := by simpa using hb
    have ih := fold_or_eq_or_of_xor k xs ys (r ||| (x.val ^^^ y.val)) hxs hys
    rw [List.range_succ_eq_map, List.foldl_cons, List.foldl_map]
    rw [List.take_succ_cons, List.take_succ_cons]
    show (List.range k).foldl (fun r i => r ||| (uchar_at xs i ^^^ uchar_at ys i))
        (r ||| (x.val ^^^ y.val)) = r ||| ((x.val ^^^ y.val) ||| or_of_xor (xs.take k) (ys.take k))
    rw [ih, Nat.or_assoc]

theorem or_of_xor_lt : ∀ (xs ys : List Byte), or_of_xor xs ys < 2 ^ 8
  | [], _ => by simp [or_of_xor]
  | _ :: _, [] => by simp [or_of_xor]
  | x :: xs, y :: ys => by
    have hx : x.val < 2 ^ 8 := x.isLt
    have hy : y.val < 2 ^ 8 := y.isLt
    exact Nat.or_lt_two_pow (Nat.xor_lt_two_pow hx hy) (or_of_xor_lt xs ys)

theorem fold_or_absorbs (f : Nat → Nat) (k r i : Nat) (hi : i < k) :
    f i ||| (List.range k).foldl (fun r i => r ||| f i) r =
      (List.range k).foldl (fun r i => r ||| f i) r := by
  induction k with
  | zero => omega
  | succ k ih =>
    rw [List.range_succ, List.foldl_append]
    simp only [List.foldl_cons, List.foldl_nil]
    by_cases hik : i = k
    · subst hik
      rw [Nat.or_comm, Nat.or_assoc, Nat.or_self]
    · rw [← Nat.or_assoc, ih (by omega)]

/-- C13. On two NUL-terminated strings of the same length `n` (fitting the `int`
the code keeps it in) `timing_safe_strcmp` returns the bitwise OR, over the `n`
positions, of the XOR of the two unsigned bytes at that position: the value is at
most 255, and the XOR of every one of the `n` positions is contained in it, so no
position is skipped wherever the first difference lies. On strings of different
lengths it returns exactly 1. -/
theorem timing_safe_strcmp_is_or_of_xor (a b : List Byte) (n m : Nat)
    (ha : strlen a = some n) (hb : strlen b = some m)
    (hn : n < 2 ^ 31) (hm : m < 2 ^ 31) :
    (n = m → ∃ r : Nat, timing_safe_strcmp a b = some (r : Int) ∧
      r = or_of_xor (a.take n) (b.take n) ∧ r ≤ 255 ∧
      ∀ i, i < n → ((a.getD i 0).val ^^^ (b.getD i 0).val) ||| r = r) ∧
    (n ≠ m → timing_safe_strcmp a b = some 1) := by
  constructor
  · intro hnm
    subst hnm
    have hla : n ≤ a.length := le_of_lt (strlen_lt_length a n ha)
    have hlb : n ≤ b.length := le_of_lt (strlen_lt_length b n hb)
    have hloop : xor_or_loop a b (n : Int) 0 = or_of_xor (a.take n) (b.take n) := by
      unfold xor_or_loop
      rw [Int.toNat_ofNat, fold_or_eq_or_of_xor n a b 0 hla hlb, Nat.zero_or]
    refine ⟨xor_or_loop a b (n : Int) 0, ?_, hloop, ?_, ?_⟩
    · rw [timing_safe_strcmp_of_strlen a b n n ha hb, int_of_size_t_small n hn]
      simp
    · rw [hloop]
      have := or_of_xor_lt (a.take n) (b.take n)
      omega
    · intro i hi
      unfold xor_or_loop
      rw [Int.toNat_ofNat]
      exact fold_or_absorbs (fun i => uchar_at a i ^^^ uchar_at b i) n 0 i hi
  · intro hnm
    exact timing_safe_strcmp_length_ne a b n m ha hb hn hm hnm

theorem timing_safe_strcmp_is_or_of_xor_witness :
    (∃ r : Nat, timing_safe_strcmp [104, 105, 33, 0, 7] [72, 105, 63, 0] = some (r : Int) ∧
      r = or_of_xor [104, 105, 33] [72, 105, 63] ∧ r ≤ 255 ∧
      ∀ i, i < 3 → ((([104, 105, 33, 0, 7] : List Byte).getD i 0).val ^^^
        (([72, 105, 63, 0] : List Byte).getD i 0).val) ||| r = r) ∧
    timing_safe_strcmp [104, 105, 33, 0, 7] [72, 105, 0] = some 1 :=
  ⟨(timing_safe_strcmp_is_or_of_xor [104, 105, 33, 0, 7] [72, 105, 63, 0] 3 3
      (by decide) (by decide) (by decide) (by decide)).1 rfl,
   (timing_safe_strcmp_is_or_of_xor [104, 105, 33, 0, 7] [72, 105, 0] 3 2
      (by decide) (by decide) (by decide) (by decide)).2 (by decide)⟩

/-! ## Determinism of `checkpw` -/

theorem fold_or_congr (f g : Nat → Nat) (k r : Nat) (h : ∀ i, i < k → f i = g i) :
    (List.range k).foldl (fun r i => r ||| f i) r =
      (List.range k).foldl (fun r i => r ||| g i) r := by
  induction k with
  | zero => rfl
  | succ k ih =>
    rw [List.range_succ, List.foldl_append, List.foldl_append]
    simp only [List.foldl_cons, List.foldl_nil]
    rw [ih (fun i hi => h i (Nat.lt_succ_of_lt hi)), h k (Nat.lt_succ_self k)]

theorem xor_or_loop_congr_right (u1 u2 u3 : List Byte) (len1 : Int) (ret : Nat)
    (h : ∀ i, i < len1.toNat → u2.getD i 0 = u3.getD i 0) :
    xor_or_loop u1 u2 len1 ret = xor_or_loop u1 u3 len1 ret := by
  unfold xor_or_loop
  apply fold_or_congr
  intro i hi
  unfold uchar_at
  rw [h i hi]

theorem timing_safe_strcmp_congr_right (a b c : List Byte)
    (hlen : strlen b = strlen c)
    (hbytes : ∀ n i, strlen b = some n → i < n → b.getD i 0 = c.getD i 0) :
    timing_safe_strcmp a b = timing_safe_strcmp a c := by
  cases ha : strlen a with
  | none =>
    cases hb : strlen b <;> cases hc : strlen c <;> simp [timing_safe_strcmp, ha, hb, hc]
  | some n =>
    cases hb : strlen b with
    | none =>
      have hc : strlen c = none := by rw [← hlen, hb]
      simp [timing_safe_strcmp, ha, hb, hc]
    | some m =>
      have hc : strlen c = some m := by rw [← hlen, hb]
      rw [timing_safe_strcmp_of_strlen a b n m ha hb,
        timing_safe_strcmp_of_strlen a c n m ha hc]
      by_cases h : int_of_size_t n = int_of_size_t m
      · rw [if_neg (not_not.mpr h), if_neg (not_not.mpr h)]
        have hloop : xor_or_loop a b (int_of_size_t n) 0 =
            xor_or_loop a c (int_of_size_t n) 0 := by
          apply xor_or_loop_congr_right
          intro i hi
          apply hbytes m i hb
          rw [h] at hi
          exact lt_of_lt_of_le hi (int_of_size_t_toNat_le m)
        rw [hloop]
      · rw [if_pos h, if_pos h]

theorem checkpw_eq (crypt_rn : CryptRn) (outhash0 : Fin BCRYPT_HASHSIZE → Byte)
    (passwd hash out : List Byte) (isnull : Bool)
    (h : crypt_rn passwd hash (List.ofFn outhash0) BCRYPT_HASHSIZE = ⟨isnull, out⟩) :
    checkpw crypt_rn outhash0 passwd hash =
      if isnull then some (-1) else timing_safe_strcmp hash out := by
  unfold checkpw hashpw
  rw [h]
  cases isnull
  · rfl
  · rfl

/-- C12. The result of `checkpw` is determined by the stored hash and by what the
primitive leaves: it is -1 when `crypt_rn` returns `NULL`, and otherwise the
comparator's value on the stored hash and the string the primitive wrote. So two
calls on the same password and stored hash, whatever the local array `outhash`
held before each call, return the same result as soon as the primitive is
deterministic on that pair: the same `NULL` or non-`NULL` pointer and, when
non-`NULL`, the same string (same length, same bytes before the NUL). -/
theorem checkpw_deterministic (crypt_rn : CryptRn)
    (outhash0 outhash1 : Fin BCRYPT_HASHSIZE → Byte)
    (passwd hash out0 out1 : List Byte) (isnull : Bool)
    (h0 : crypt_rn passwd hash (List.ofFn outhash0) BCRYPT_HASHSIZE = ⟨isnull, out0⟩)
    (h1 : crypt_rn passwd hash (List.ofFn outhash1) BCRYPT_HASHSIZE = ⟨isnull, out1⟩)
    (hlen : isnull = false → strlen out0 = strlen out1)
    (hbytes : isnull = false →
      ∀ n i, strlen out0 = some n → i < n → out0.getD i 0 = out1.getD i 0) :
    checkpw crypt_rn outhash0 passwd hash = checkpw crypt_rn outhash1 passwd hash ∧
    checkpw crypt_rn outhash0 passwd hash =
      (if isnull then some (-1) else timing_safe_strcmp hash out0) := by
  have e0 := checkpw_eq crypt_rn outhash0 passwd hash out0 isnull h0
  have e1 := checkpw_eq crypt_rn outhash1 passwd hash out1 isnull h1
  refine ⟨?_, e0⟩
  rw [e0, e1]
  by_cases hnull : isnull = true
  · rw [if_pos hnull, if_pos hnull]
  · have hf : isnull = false := Bool.eq_false_iff.mpr hnull
    rw [if_neg hnull, if_neg hnull]
    exact timing_safe_strcmp_congr_right hash out0 out1 (hlen hf) (hbytes hf)

theorem checkpw_deterministic_witness :
    (demo_crypt_rn_inplace [112, 119, 0] [36, 112, 119, 0] (List.ofFn demo_outhash0)
        BCRYPT_HASHSIZE).output ≠
      (demo_crypt_rn_inplace [112, 119, 0] [36, 112, 119, 0] (List.ofFn demo_outhash1)
        BCRYPT_HASHSIZE).output ∧
    checkpw demo_crypt_rn_inplace demo_outhash0 [112, 119, 0] [36, 112, 119, 0] =
      checkpw demo_crypt_rn_inplace demo_outhash1 [112, 119, 0] [36, 112, 119, 0] ∧
    checkpw demo_crypt_rn_inplace demo_outhash0 [112, 119, 0] [36, 112, 119, 0] = some 0 :=
  ⟨by decide,
   (checkpw_deterministic demo_crypt_rn_inplace demo_outhash0 demo_outhash1
      [112, 119, 0] [36, 112, 119, 0]
      (demo_crypt_rn_inplace [112, 119, 0] [36, 112, 119, 0] (List.ofFn demo_outhash0)
        BCRYPT_HASHSIZE).output
      (demo_crypt_rn_inplace [112, 119, 0] [36, 112, 119, 0] (List.ofFn demo_outhash1)
        BCRYPT_HASHSIZE).output
      false rfl rfl (fun _ => by decide)
      (fun _ n i hn hi => by
        have h3 : strlen (demo_crypt_rn_inplace [112, 119, 0] [36, 112, 119, 0]
            (List.ofFn demo_outhash0) BCRYPT_HASHSIZE).output = some 3 := by decide
        rw [h3] at hn
        have hn3 : n = 3 := (Option.some.inj hn).symm
        subst hn3
        have hcases : i = 0 ∨ i = 1 ∨ i = 2 := by omega
        rcases hcases with rfl | rfl | rfl <;> decide)).1,
   ((checkpw_deterministic demo_crypt_rn_inplace demo_outhash0 demo_outhash1
      [112, 119, 0] [36, 112, 119, 0]
      (demo_crypt_rn_inplace [112, 119, 0] [36, 112, 119, 0] (List.ofFn demo_outhash0)
        BCRYPT_HASHSIZE).output
      (demo_crypt_rn_inplace [112, 119, 0] [36, 112, 119, 0] (List.ofFn demo_outhash1)
        BCRYPT_HASHSIZE).output
      false rfl rfl (fun _ => by decide)
      (fun _ n i hn hi => by
        have h3 : strlen (demo_crypt_rn_inplace [112, 119, 0] [36, 112, 119, 0]
            (List.ofFn demo_outhash0) BCRYPT_HASHSIZE).output = some 3 := by decide
        rw [h3] at hn
        have hn3 : n = 3 := (Option.some.inj hn).symm
        subst hn3
        have hcases : i = 0 ∨ i = 1 ∨ i = 2 := by omega
        rcases hcases with rfl | rfl | rfl <;> decide)).2).trans (by decide)⟩

end Bcrypt
